import Mathlib

/-!
Shallow embedding of the tcec-notifier core (src/tcec.rs, src/tcec_pgn.rs,
src/state.rs) and verification of its specification.

Modelling conventions:
* Rust `String`/`&str` values are Lean `String`s; byte-level operations
  (hashing, `str::contains`) are modelled on the UTF-8 byte sequence /
  character sequence of the string (valid UTF-8 throughout, as in Rust).
* The regex character class `\d` (Unicode decimal digit) and Unicode
  whitespace trimming are modelled by their ASCII restrictions, which
  coincide with the real behaviour on all ASCII inputs.
* `u64` arithmetic is `Nat` with explicit reduction modulo `2 ^ 64`.
* Panics (`assert_ne!`, `expect`) are modelled as distinguished failure
  constructors, kept separate from errors returned to the caller.
-/

/-! ### Generic character/list utilities -/

/-- `startsWithL p s`: the list `s` starts with the pattern `p`
(models `str::starts_with`). -/
def startsWithL : List Char → List Char → Bool
  | [], _ => true
  | _ :: _, [] => false
  | p :: ps, c :: cs => p == c && startsWithL ps cs

/-- `containsSub s p`: the pattern `p` occurs contiguously inside `s`
(models `str::contains`; byte-level search on valid UTF-8 coincides with
character-level search). -/
def containsSub : List Char → List Char → Bool
  | [], p => startsWithL p []
  | c :: cs, p => startsWithL p (c :: cs) || containsSub cs p

/-- ASCII whitespace (models the whitespace class used by `str::trim`
restricted to ASCII). -/
def isWsp (c : Char) : Bool := c == ' ' || c == '\t' || c == '\n' || c == '\r'

/-- Trim whitespace from both ends (models `str::trim`). -/
def trimList (cs : List Char) : List Char :=
  (((cs.dropWhile isWsp).reverse).dropWhile isWsp).reverse

/-- `str::starts_with` on `String`s. -/
def strStartsWith (s p : String) : Bool := startsWithL p.data s.data

/-! ### EngineName (src/tcec.rs) -/

/-- `EngineName`: wraps the raw display string. -/
structure EngineName where
  raw : String
deriving DecidableEq

/-- Scanner for the regex tail `\d+(\.\d+)?(\.\d+)?` anchored at the end:
`k` is how many `.digits` groups may still be opened, `needDigit` records
that at least one digit must still be read before the current run (the
initial `\d+` or the digits of a group) may end. -/
def versionTail : Nat → Bool → List Char → Bool
  | _, needDigit, [] => !needDigit
  | k, needDigit, c :: rest =>
      if c.isDigit then versionTail k false rest
      else if c = '.' && !needDigit && decide (k ≠ 0) then versionTail (k - 1) true rest
      else false

/-- After the leading space of the version regex ` v?(\d+)(\.\d+)?(\.\d+)?$`:
an optional `v` (useful only when a digit follows), then `\d+(\.\d+)?(\.\d+)?`
up to the end of the string. -/
def versionSuffixBody (cs : List Char) : Bool :=
  let cs' := match cs with
    | 'v' :: c :: rest => if c.isDigit then c :: rest else cs
    | _ => cs
  versionTail 2 true cs'

/-- Does the whole list match the version regex ` v?(\d+)(\.\d+)?(\.\d+)?$`? -/
def isVersionSuffix : List Char → Bool
  | ' ' :: rest => versionSuffixBody rest
  | _ => false

/-- `version_regex.replace_all(name, "")`: the regex is end-anchored, so at
most one (leftmost) match exists; remove the earliest suffix that matches. -/
def stripVersionSuffix : List Char → List Char
  | [] => []
  | c :: rest =>
      if isVersionSuffix (c :: rest) then []
      else c :: stripVersionSuffix rest

/-- Lookahead for the date-version regex ` \d{4}[a-zA-Z]`: do the five
characters after the space consist of four digits and a letter? -/
def dateTokAfterSpace : List Char → Bool
  | c1 :: c2 :: c3 :: c4 :: c5 :: _ =>
      c1.isDigit && c2.isDigit && c3.isDigit && c4.isDigit && c5.isAlpha
  | _ => false

/-- Scanner for `date_version_regex.replace_all(name, "")`: `skip` counts
characters of an already-matched token still to be dropped. -/
def stripDateVersionAux : Nat → List Char → List Char
  | _, [] => []
  | s + 1, _ :: rest => stripDateVersionAux s rest
  | 0, c :: rest =>
      if c = ' ' && dateTokAfterSpace rest then stripDateVersionAux 5 rest
      else c :: stripDateVersionAux 0 rest

/-- ` \d{4}[a-zA-Z]` replaced by the empty string everywhere (leftmost,
non-overlapping), as `Regex::replace_all` does. -/
def stripDateVersion (cs : List Char) : List Char := stripDateVersionAux 0 cs

/-- `EngineName::normalize`: ASCII lower-case, strip the end-anchored version
suffix, trim, strip date-version tokens, trim. -/
def EngineName.normalize (name : String) : String :=
  let n1 := name.data.map Char.toLower
  let n2 := trimList (stripVersionSuffix n1)
  let n3 := trimList (stripDateVersion n2)
  ⟨n3⟩

/-- `EngineName::new`. -/
def EngineName.new (name : String) : EngineName := ⟨name⟩

/-- `EngineName::matches`: normalized containment. -/
def EngineName.matches (e : EngineName) (name : String) : Bool :=
  containsSub (EngineName.normalize e.raw).data (EngineName.normalize name).data

/-- `impl PartialEq for EngineName`: equality of normalized forms. -/
def EngineName.eqv (a b : EngineName) : Bool :=
  EngineName.normalize a.raw == EngineName.normalize b.raw


/-! ### UTF-8 bytes and the default hasher (SipHash-1-3, keys 0) -/

/-- UTF-8 encoding of one character (the bytes `str::as_bytes` exposes),
written with `/`, `%`, `+` on disjoint bit ranges. -/
def utf8Char (c : Char) : List Nat :=
  let n := c.toNat
  if n < 128 then [n]
  else if n < 2048 then [192 + n / 64, 128 + n % 64]
  else if n < 65536 then [224 + n / 4096, 128 + (n / 64) % 64, 128 + n % 64]
  else [240 + n / 262144, 128 + (n / 4096) % 64, 128 + (n / 64) % 64, 128 + n % 64]

/-- UTF-8 byte sequence of a string. -/
def utf8Str (s : String) : List Nat := s.data.foldr (fun c acc => utf8Char c ++ acc) []

/-- The four 64-bit state words of a SipHash hasher. -/
structure SipState where
  v0 : Nat
  v1 : Nat
  v2 : Nat
  v3 : Nat
deriving DecidableEq

/-- Truncation to 64 bits (`u64` wrap-around). -/
def w64 (n : Nat) : Nat := n % 18446744073709551616

/-- 64-bit left rotation. -/
def rotl64 (x r : Nat) : Nat := ((x <<< r) % 18446744073709551616) ||| (x >>> (64 - r))

/-- One SIPROUND. -/
def sipRound (s : SipState) : SipState :=
  let v0 := w64 (s.v0 + s.v1)
  let v1 := rotl64 s.v1 13
  let v1 := v1 ^^^ v0
  let v0 := rotl64 v0 32
  let v2 := w64 (s.v2 + s.v3)
  let v3 := rotl64 s.v3 16
  let v3 := v3 ^^^ v2
  let v0 := w64 (v0 + v3)
  let v3 := rotl64 v3 21
  let v3 := v3 ^^^ v0
  let v2 := w64 (v2 + v1)
  let v1 := rotl64 v1 17
  let v1 := v1 ^^^ v2
  let v2 := rotl64 v2 32
  ⟨v0, v1, v2, v3⟩

/-- Absorb one 64-bit message word (SipHash-1-3: one round per word). -/
def sipWord (s : SipState) (m : Nat) : SipState :=
  let s1 : SipState := ⟨s.v0, s.v1, s.v2, s.v3 ^^^ m⟩
  let s2 := sipRound s1
  ⟨s2.v0 ^^^ m, s2.v1, s2.v2, s2.v3⟩

/-- Little-endian value of at most eight bytes. -/
def le8 (bs : List Nat) : Nat := bs.foldr (fun b acc => b + acc * 256) 0

/-- Process the byte stream in 8-byte little-endian words, then the final
block carrying the total length mod 256 in the top byte, `v2 ^= 0xff`, three
finalization rounds, and the xor of the state words. -/
def sipBlocks (s : SipState) (len : Nat) : List Nat → Nat
  | b0 :: b1 :: b2 :: b3 :: b4 :: b5 :: b6 :: b7 :: rest =>
      sipBlocks (sipWord s (le8 [b0, b1, b2, b3, b4, b5, b6, b7])) len rest
  | bs =>
      let b := (len % 256) * 72057594037927936 + le8 bs
      let s1 := sipWord s b
      let s2 : SipState := ⟨s1.v0, s1.v1, s1.v2 ^^^ 255, s1.v3⟩
      let s3 := sipRound (sipRound (sipRound s2))
      w64 (((s3.v0 ^^^ s3.v1) ^^^ s3.v2) ^^^ s3.v3)

/-- SipHash-1-3 with both keys zero, i.e. `std::hash::DefaultHasher`:
`finish` after `write`-ing the given byte stream. -/
def sip13 (bs : List Nat) : Nat :=
  sipBlocks ⟨0x736f6d6570736575, 0x646f72616e646f6d,
             0x6c7967656e657261, 0x7465646279746573⟩ bs.length bs

/-- The bytes `impl Hash for str` feeds to the hasher: the UTF-8 bytes
followed by the `0xff` terminator byte. -/
def strHashBytes (s : String) : List Nat := utf8Str s ++ [255]

/-! ### Pgn (src/tcec_pgn.rs) -/

/-- `PgnMove`; `sanStr` models the `notation` field (a Lean keyword). -/
structure PgnMove where
  sanStr : String
  in_book : Bool
deriving DecidableEq

/-- `Pgn`: the structured game record. -/
structure Pgn where
  white_player : EngineName
  black_player : EngineName
  date : String
  event : String
  moves : List PgnMove
deriving DecidableEq

/-- `Pgn::opening`: the moves up to the first non-book move. -/
def Pgn.opening (g : Pgn) : List PgnMove := g.moves.takeWhile (fun mv => mv.in_book)

/-- `Pgn::out_of_book`: some played move is not a book move. -/
def Pgn.out_of_book (g : Pgn) : Bool := g.moves.any (fun mv => !mv.in_book)

/-- `Pgn::has_player`. -/
def Pgn.has_player (g : Pgn) (player : String) : Bool :=
  g.white_player.matches player || g.black_player.matches player

/-- The byte stream `impl Hash for Pgn` feeds to the hasher: the normalized
white name (`impl Hash for EngineName` hashes the normalized form), the
normalized black name, the date, then the notation of each opening move,
each as `str` hash bytes, in write order. -/
def Pgn.hashStream (g : Pgn) : List Nat :=
  strHashBytes (EngineName.normalize g.white_player.raw)
    ++ strHashBytes (EngineName.normalize g.black_player.raw)
    ++ strHashBytes g.date
    ++ g.opening.foldl (fun acc mv => acc ++ strHashBytes mv.sanStr) []

/-- `Pgn::as_hash`: `DefaultHasher` finish over the hash stream. -/
def Pgn.as_hash (g : Pgn) : Nat := sip13 g.hashStream

/-- `impl PartialEq for Pgn`: equality of identity hashes. -/
def Pgn.eqv (g g' : Pgn) : Bool := g.as_hash == g'.as_hash

/-- The components the identity hash is computed over, in order: normalized
white, normalized black, date, the notation of every opening move. -/
def Pgn.hashChunks (g : Pgn) : List String :=
  EngineName.normalize g.white_player.raw
    :: EngineName.normalize g.black_player.raw
    :: g.date
    :: g.opening.map PgnMove.sanStr

/-- Concatenation of the `str` hash bytes of a list of strings. -/
def encodeChunks (l : List String) : List Nat :=
  l.foldr (fun s acc => strHashBytes s ++ acc) []


/-! ### The PGN visitor (PgnInfoBuilder, src/tcec_pgn.rs) -/

/-- The callbacks `pgn_reader` delivers to the visitor for one game (tokens
inside skipped variations are never delivered, since `begin_variation`
returns `Skip(true)`). -/
inductive PgnEvent where
  | header (key value : String)
  | sanEv (s : String)
  | commentEv (c : String)
deriving DecidableEq

/-- `PgnInfoBuilder`: the visitor state. -/
structure PgnInfoBuilder where
  white_player : Option String
  black_player : Option String
  date : Option String
  event : Option String
  moves : List PgnMove
  last_san : Option String
  last_comment : Option String
deriving DecidableEq

/-- `PgnInfoBuilder::new`. -/
def PgnInfoBuilder.new : PgnInfoBuilder := ⟨none, none, none, none, [], none, none⟩

/-- `PgnInfoBuilder::add_move`: the book classification is computed at commit
time from the comment attached at that moment. -/
def add_move (b : PgnInfoBuilder) (san comment : String) : PgnInfoBuilder :=
  { b with moves := b.moves ++ [⟨san, strStartsWith comment "book,"⟩] }

/-- The `if let Some(last_san) = ... { add_move(...) }` snippet shared by the
`san` and `end_game` callbacks: commit the pending move, if any, with the
pending comment (or the empty string). -/
def commitPending (b : PgnInfoBuilder) : PgnInfoBuilder :=
  match b.last_san with
  | some ls => add_move b ls (b.last_comment.getD "")
  | none => b

/-- One visitor callback (header / san / comment). -/
def stepEv (b : PgnInfoBuilder) : PgnEvent → PgnInfoBuilder
  | .header k v =>
      let b1 := if k = "Event" then { b with event := some v } else b
      let b2 := if k = "White" then { b1 with white_player := some v } else b1
      let b3 := if k = "Black" then { b2 with black_player := some v } else b2
      if k = "Date" then { b3 with date := some v } else b3
  | .sanEv s =>
      let b1 := commitPending b
      { b1 with last_comment := none, last_san := some s }
  | .commentEv c => { b with last_comment := some c }

/-- How a parse attempt ends: a `Pgn`, an error returned to the caller
(`anyhow::Result`), or a process panic (`assert_ne!`). -/
inductive ParseResult where
  | ok (g : Pgn)
  | errored (msg : String)
  | panicked (msg : String)
deriving DecidableEq

/-- `PgnInfoBuilder::end_game`: commit the pending move, then `assert_ne!`
each required header (a panic when absent, in source order) and build the
`Pgn`. -/
def end_game (b : PgnInfoBuilder) : ParseResult :=
  let b1 := commitPending b
  if b1.white_player = none then .panicked "assertion failed: white_player != None"
  else if b1.black_player = none then .panicked "assertion failed: black_player != None"
  else if b1.date = none then .panicked "assertion failed: date != None"
  else if b1.event = none then .panicked "assertion failed: event != None"
  else .ok ⟨EngineName.new (b1.white_player.getD ""), EngineName.new (b1.black_player.getD ""),
            b1.date.getD "", b1.event.getD "", b1.moves⟩

/-- `get_pgn_info`: `read_game` yields `none` when the text holds no game
(then `bail!("Empty PGN")` — an error returned to the caller), otherwise the
visitor is driven over the game's token events and `end_game` finishes. -/
def get_pgn_info (input : Option (List PgnEvent)) : ParseResult :=
  match input with
  | none => .errored "Empty PGN"
  | some evs => end_game (evs.foldl stepEv PgnInfoBuilder.new)

/-! ### SeenGames (src/state.rs) -/

/-- Decimal digit character. -/
def digitChar : Nat → Char
  | 0 => '0' | 1 => '1' | 2 => '2' | 3 => '3' | 4 => '4'
  | 5 => '5' | 6 => '6' | 7 => '7' | 8 => '8' | _ => '9'

/-- Fuelled decimal rendering accumulator (fuel `n + 1` always suffices). -/
def natToDecAux : Nat → Nat → List Char → List Char
  | 0, _, acc => acc
  | fuel + 1, n, acc =>
      if n < 10 then digitChar n :: acc
      else natToDecAux fuel (n / 10) (digitChar (n % 10) :: acc)

/-- Base-10 rendering of a `u64` value, as `Display for u64` produces. -/
def natToDec (n : Nat) : String := ⟨natToDecAux (n + 1) n []⟩

/-- Fold computing the value of a digit string. -/
def decDigitsVal (cs : List Char) : Nat := cs.foldl (fun a c => a * 10 + (c.toNat - 48)) 0

/-- `u64::from_str`: an optional leading `+`, then one or more ASCII digits,
rejecting the empty string and out-of-range values. -/
def parseU64 (s : String) : Option Nat :=
  let cs := match s.data with
    | c :: rest => if c = '+' then rest else c :: rest
    | [] => []
  if cs ≠ [] && cs.all Char.isDigit then
    if decDigitsVal cs < 18446744073709551616 then some (decDigitsVal cs) else none
  else none

/-- Split at `'\n'`, keeping the segments in order (accumulator holds the
current segment reversed). -/
def splitLinesAux : List Char → List Char → List (List Char)
  | cur, [] => [cur.reverse]
  | cur, c :: rest =>
      if c = '\n' then cur.reverse :: splitLinesAux [] rest
      else splitLinesAux (c :: cur) rest

/-- Strip one trailing `'\r'`, as `str::lines` does per line. -/
def stripCR (cs : List Char) : List Char :=
  match cs.reverse with
  | c :: rest => if c = '\r' then rest.reverse else cs
  | [] => cs

/-- `str::lines`: split at `'\n'`, drop the final empty segment (a trailing
line terminator does not open a new line), strip one `'\r'` per line. -/
def strLines (s : String) : List String :=
  let segs := splitLinesAux [] s.data
  let segs2 := if segs.getLast? = some [] then segs.dropLast else segs
  segs2.map (fun cs => ⟨stripCR cs⟩)

/-- `SeenGames`: the in-memory set (a `HashSet<u64>`, modelled as the list of
inserted values — only membership is ever consulted) and the backing file's
content. -/
structure SeenGames where
  state : List Nat
  file : String
deriving DecidableEq

/-- How `SeenGames::load` ends: a store, an I/O error returned to the caller
(the `open` step), or the `expect("Bad state file")` panic on a malformed
line. -/
inductive LoadResult where
  | ok (s : SeenGames)
  | ioFailed
  | panicked (msg : String)
deriving DecidableEq

/-- Parse every line, failing on the first malformed one. -/
def parseAllLines : List String → Option (List Nat)
  | [] => some []
  | l :: rest =>
      match parseU64 l, parseAllLines rest with
      | some v, some vs => some (v :: vs)
      | _, _ => none

/-- `SeenGames::load`: open (create if missing) — an I/O failure there is
returned as an error — read the whole content and parse each line with
`parse::<u64>().expect("Bad state file")`, which panics on a malformed line. -/
def SeenGames.load (openOk : Bool) (content : String) : LoadResult :=
  if openOk then
    match parseAllLines (strLines content) with
    | some vals => .ok ⟨vals, content⟩
    | none => .panicked "Bad state file"
  else .ioFailed

/-- `SeenGames::contains`. -/
def SeenGames.contains (s : SeenGames) (g : Pgn) : Bool := s.state.contains g.as_hash

/-- `SeenGames::add`: insert into the in-memory set first, then `writeln!`
the decimal hash (the appended bytes include the trailing newline); a write
failure is reported (`false`) but the insertion stays. -/
def SeenGames.add (s : SeenGames) (g : Pgn) (writeOk : Bool) : SeenGames × Bool :=
  let s1 : SeenGames := ⟨g.as_hash :: s.state, s.file⟩
  if writeOk then (⟨s1.state, s1.file ++ natToDec g.as_hash ++ "\n"⟩, true)
  else (s1, false)


/-! ### Remaining definitions used by the statements -/

/-- The bytes `impl Hash for EngineName` feeds to the hasher: the `str` hash
bytes of the normalized form. -/
def EngineName.hashBytes (e : EngineName) : List Nat :=
  strHashBytes (EngineName.normalize e.raw)

/-- A backing file in the store's own format never ends mid-line: it is
empty or its last character is the newline `writeln!` appended. -/
def fileWF (content : String) : Prop :=
  content.data = [] ∨ content.data.getLast? = some '\n'

/-- The split accumulator left after scanning a text (the final, unterminated
segment, reversed). -/
def lastSeg : List Char → List Char → List Char
  | cur, [] => cur
  | cur, c :: rest =>
      if c = '\n' then lastSeg [] rest else lastSeg (c :: cur) rest

/-- Book move fixture. -/
def mvBook (s : String) : PgnMove := ⟨s, true⟩

/-- Non-book move fixture. -/
def mvLive (s : String) : PgnMove := ⟨s, false⟩

/-- Fixture game with move pattern [book, book, non-book, book]. -/
def gameBBNB : Pgn :=
  ⟨⟨"Lunar 2.0.1"⟩, ⟨"Colossus 2025b"⟩, "2025.12.02", "TCEC",
   [mvBook "e4", mvBook "c5", mvLive "Nf3", mvBook "e6"]⟩

/-- `gameBBNB` with only its post-opening moves changed. -/
def gameBBNBAlt : Pgn :=
  ⟨⟨"Lunar 2.0.1"⟩, ⟨"Colossus 2025b"⟩, "2025.12.02", "TCEC",
   [mvBook "e4", mvBook "c5", mvLive "Qa3", mvBook "h6"]⟩

/-- `gameBBNB` with only its date changed. -/
def gameBBNBDate : Pgn :=
  ⟨⟨"Lunar 2.0.1"⟩, ⟨"Colossus 2025b"⟩, "2025.12.03", "TCEC",
   [mvBook "e4", mvBook "c5", mvLive "Nf3", mvBook "e6"]⟩

/-- Fixture game whose moves are all book moves. -/
def gameAllBook : Pgn :=
  ⟨⟨"Lunar 2.0.1"⟩, ⟨"Colossus 2025b"⟩, "2025.12.02", "TCEC",
   [mvBook "e4", mvBook "c5"]⟩

/-! ### Helper lemmas: substring search -/

theorem startsWithL_iff (p s : List Char) :
    startsWithL p s = true ↔ ∃ r, s = p ++ r := by
  induction p generalizing s with
  | nil => simp [startsWithL]
  | cons a ps ih =>
    cases s with
    | nil => simp [startsWithL]
    | cons c cs =>
      simp only [startsWithL, Bool.and_eq_true, beq_iff_eq, ih, List.cons_append,
        List.cons.injEq]
      constructor
      · rintro ⟨rfl, r, rfl⟩
        exact ⟨r, rfl, rfl⟩
      · rintro ⟨r, rfl, rfl⟩
        exact ⟨rfl, r, rfl⟩

theorem containsSub_iff (s p : List Char) :
    containsSub s p = true ↔ ∃ l r, s = l ++ p ++ r := by
  induction s with
  | nil =>
    simp only [containsSub, startsWithL_iff]
    constructor
    · rintro ⟨r, h⟩
      exact ⟨[], r, by simpa using h⟩
    · rintro ⟨l, r, h⟩
      cases l with
      | nil => exact ⟨r, by simpa using h⟩
      | cons x xs => simp at h
  | cons c cs ih =>
    simp only [containsSub, Bool.or_eq_true, startsWithL_iff, ih]
    constructor
    · rintro (⟨r, h⟩ | ⟨l, r, h⟩)
      · exact ⟨[], r, by simpa using h⟩
      · exact ⟨c :: l, r, by simp [h]⟩
    · rintro ⟨l, r, h⟩
      cases l with
      | nil => exact Or.inl ⟨r, by simpa using h⟩
      | cons x xs =>
        simp only [List.cons_append, List.cons.injEq] at h
        exact Or.inr ⟨xs, r, by simp [h.2]⟩

/-! ### Helper lemmas: takeWhile -/

theorem takeWhile_stops {α : Type} (p : α → Bool) :
    ∀ (l : List α) (h : (l.takeWhile p).length < l.length),
      p (l.get ⟨(l.takeWhile p).length, h⟩) = false := by
  intro l
  induction l with
  | nil => intro h; simp at h
  | cons a t ih =>
    intro h
    by_cases hp : p a = true
    · have he : (a :: t).takeWhile p = a :: t.takeWhile p := by
        simp [List.takeWhile_cons, hp]
      simp only [he, List.length_cons] at h ⊢
      simpa using ih (by omega)
    · have he : (a :: t).takeWhile p = ([] : List α) := by
        simp [List.takeWhile_cons, hp]
      simp [he, Bool.not_eq_true] at hp ⊢
      simpa using hp

/-! ### C2 -/

/-- C2: `A.matches(b)` holds iff the normalized form of `b` occurs as a
contiguous substring of the normalized form of `A`, where normalization
lower-cases, strips the end-anchored version suffix, strips date-version
tokens and trims; the three version-tolerance examples hold. -/
theorem c2_matches_is_normalized_containment (a b : String) :
    ((EngineName.new a).matches b = true
      ↔ ∃ l r, (EngineName.normalize a).data
          = l ++ (EngineName.normalize b).data ++ r)
    ∧ (EngineName.new "Lunar 2").matches "Lunar" = true
    ∧ (EngineName.new "Lunar 2.0.1").matches "Lunar" = true
    ∧ (EngineName.new "Colossus 2025b").matches "Colossus" = true := by
  exact ⟨containsSub_iff _ _, by decide, by decide, by decide⟩

/-! ### C4 -/

/-- C4: `opening()` is a prefix of the move list, all its moves are book
moves, it stops exactly at the first non-book move (even if later moves are
book again), and a [book, book, non-book, book] sequence yields an opening of
length 2. -/
theorem c4_opening_stops_at_first_nonbook (g : Pgn) (m1 m2 m3 m4 w b d e : String) :
    (∃ r, g.moves = g.opening ++ r)
    ∧ (∀ mv ∈ g.opening, mv.in_book = true)
    ∧ (∀ h : g.opening.length < g.moves.length,
        (g.moves.get ⟨g.opening.length, h⟩).in_book = false)
    ∧ (Pgn.opening ⟨⟨w⟩, ⟨b⟩, d, e,
        [⟨m1, true⟩, ⟨m2, true⟩, ⟨m3, false⟩, ⟨m4, true⟩]⟩).length = 2 := by
  refine ⟨⟨g.moves.dropWhile (fun mv => mv.in_book), ?_⟩, ?_, ?_, ?_⟩
  · exact (List.takeWhile_append_dropWhile ..).symm
  · intro mv hmv
    exact List.mem_takeWhile_imp hmv
  · intro h
    exact takeWhile_stops _ g.moves h
  · simp [Pgn.opening, List.takeWhile]

/-- Witness for C4 at a concrete game: the opening of the fixture
[book, book, non-book, book] game is shorter than its move list and the move
right after it is not a book move. -/
theorem c4_opening_stops_at_first_nonbook_witness :
    ∃ h : gameBBNB.opening.length < gameBBNB.moves.length,
      (gameBBNB.moves.get ⟨gameBBNB.opening.length, h⟩).in_book = false := by
  refine ⟨by decide, ?_⟩
  exact (c4_opening_stops_at_first_nonbook gameBBNB "x" "x" "x" "x" "w" "b" "d" "e").2.2.1
    (by decide)

/-! ### C7 -/

/-- C7: `out_of_book()` is true iff some played move is not a book move; an
all-book game is not out of book, and appending one non-book move to any game
makes it out of book. -/
theorem c7_out_of_book_iff (g : Pgn) (mv : PgnMove) :
    (g.out_of_book = true ↔ ∃ m ∈ g.moves, m.in_book = false)
    ∧ ((∀ m ∈ g.moves, m.in_book = true) → g.out_of_book = false)
    ∧ (mv.in_book = false →
        Pgn.out_of_book
          ⟨g.white_player, g.black_player, g.date, g.event, g.moves ++ [mv]⟩ = true) := by
  refine ⟨?_, ?_, ?_⟩
  · simp [Pgn.out_of_book, List.any_eq_true]
  · intro hall
    simp only [Pgn.out_of_book, List.any_eq_false, Bool.not_eq_true', Bool.not_eq_false]
    intro m hm
    exact hall m hm
  · intro hmv
    simp [Pgn.out_of_book, List.any_eq_true]
    exact Or.inr hmv

/-- Witness for C7: the all-book fixture game is not out of book, and
appending the non-book move "Nf3" makes it out of book. -/
theorem c7_out_of_book_iff_witness :
    gameAllBook.out_of_book = false
    ∧ Pgn.out_of_book
        ⟨gameAllBook.white_player, gameAllBook.black_player, gameAllBook.date,
         gameAllBook.event, gameAllBook.moves ++ [mvLive "Nf3"]⟩ = true := by
  constructor
  · exact (c7_out_of_book_iff gameAllBook (mvLive "Nf3")).2.1 (by decide)
  · exact (c7_out_of_book_iff gameAllBook (mvLive "Nf3")).2.2 (by decide)

/-! ### C10 -/

/-- C10: a committed move's comment is the most recent comment seen between
its san token and the next san token (or game end): consecutive comments
overwrite (last wins); a comment seen before any move is dropped when the
first san arrives; a san token commits the pending move classified from the
buffered comment; game end commits the pending move the same way. -/
theorem c10_last_comment_wins (b : PgnInfoBuilder) (c c1 c2 m m2 : String)
    (evs : List PgnEvent) :
    (List.foldl stepEv b (.commentEv c1 :: .commentEv c2 :: evs)
      = List.foldl stepEv b (.commentEv c2 :: evs))
    ∧ (b.last_san = none →
        List.foldl stepEv b (.commentEv c :: .sanEv m :: evs)
          = List.foldl stepEv b (.sanEv m :: evs))
    ∧ (b.last_san = some m →
        stepEv b (.sanEv m2)
          = { b with
                moves := b.moves ++ [⟨m, strStartsWith (b.last_comment.getD "") "book,"⟩],
                last_comment := none, last_san := some m2 })
    ∧ (b.last_san = some m →
        (commitPending b).moves
          = b.moves ++ [⟨m, strStartsWith (b.last_comment.getD "") "book,"⟩]) := by
  refine ⟨rfl, ?_, ?_, ?_⟩
  · intro h
    simp [List.foldl_cons, stepEv, commitPending, h]
  · intro h
    simp [stepEv, commitPending, h, add_move]
  · intro h
    simp [commitPending, h, add_move]

/-- Witness for C10 at concrete states: a pre-move comment is dropped when
the first san arrives, and a pending move is committed with the buffered
comment's book classification. -/
theorem c10_last_comment_wins_witness :
    (List.foldl stepEv PgnInfoBuilder.new [.commentEv "stray", .sanEv "e4"]
      = List.foldl stepEv PgnInfoBuilder.new [.sanEv "e4"])
    ∧ (commitPending ⟨none, none, none, none, [], some "e4", some "book, mb=+0,"⟩).moves
      = [] ++ [⟨"e4", strStartsWith "book, mb=+0," "book,"⟩] := by
  constructor
  · exact (c10_last_comment_wins PgnInfoBuilder.new "stray" "" "" "e4" "" []).2.1 rfl
  · exact (c10_last_comment_wins ⟨none, none, none, none, [], some "e4", some "book, mb=+0,"⟩
      "" "" "" "e4" "" []).2.2.2 rfl

/-! ### C8 -/

/-- C8: `add` inserts the identity hash into the in-memory set before
attempting the durable append: whatever the write outcome, the resulting set
has gained the hash and `contains` is true; a failed write is reported but
rolls nothing back (file unchanged, insertion kept). -/
theorem c8_add_inserts_before_write (s : SeenGames) (g : Pgn) (writeOk : Bool) :
    ((s.add g writeOk).1.contains g = true)
    ∧ ((s.add g writeOk).1.state = g.as_hash :: s.state)
    ∧ (writeOk = false →
        (s.add g writeOk).2 = false ∧ (s.add g writeOk).1.file = s.file) := by
  cases writeOk <;>
    simp [SeenGames.add, SeenGames.contains, List.contains_cons]

/-- Witness for C8: with a failing write on the empty store, the result
reports the failure yet still contains the game. -/
theorem c8_add_inserts_before_write_witness :
    ((SeenGames.mk [] "").add gameAllBook false).1.contains gameAllBook = true
    ∧ ((SeenGames.mk [] "").add gameAllBook false).2 = false := by
  refine ⟨(c8_add_inserts_before_write ⟨[], ""⟩ gameAllBook false).1, ?_⟩
  exact ((c8_add_inserts_before_write ⟨[], ""⟩ gameAllBook false).2.2 rfl).1

/-! ### C3 -/

/-- C3 counterexample: a game whose headers lack `Date` ends the parse in the
`assert_ne!` panic — not in a structural parse error value returned to the
caller (`ParseResult.errored`). -/
theorem c3_counterexample :
    get_pgn_info (some [.header "White" "a", .header "Black" "b",
        .header "Event" "e", .sanEv "e4"])
      = .panicked "assertion failed: date != None" := by
  decide

/-- Header fields are untouched by committing the pending move. -/
theorem commitPending_headers (b : PgnInfoBuilder) :
    (commitPending b).white_player = b.white_player
    ∧ (commitPending b).black_player = b.black_player
    ∧ (commitPending b).date = b.date
    ∧ (commitPending b).event = b.event := by
  cases h : b.last_san <;> simp [commitPending, h, add_move]

/-- C3 (amended): when any of the White, Black, Date or Event headers is
absent at game end the parse panics via an assertion failure (it is not a
parse error value returned to the caller), and a successfully produced `Pgn`
takes every one of those fields verbatim from a header that was present —
never a blank or defaulted value. -/
theorem c3_missing_header_panics (evs : List PgnEvent) :
    (((evs.foldl stepEv PgnInfoBuilder.new).white_player = none
      ∨ (evs.foldl stepEv PgnInfoBuilder.new).black_player = none
      ∨ (evs.foldl stepEv PgnInfoBuilder.new).date = none
      ∨ (evs.foldl stepEv PgnInfoBuilder.new).event = none) →
      ∃ m, get_pgn_info (some evs) = .panicked m)
    ∧ (∀ g, get_pgn_info (some evs) = .ok g →
        (evs.foldl stepEv PgnInfoBuilder.new).white_player = some g.white_player.raw
        ∧ (evs.foldl stepEv PgnInfoBuilder.new).black_player = some g.black_player.raw
        ∧ (evs.foldl stepEv PgnInfoBuilder.new).date = some g.date
        ∧ (evs.foldl stepEv PgnInfoBuilder.new).event = some g.event) := by
  have hw := commitPending_headers (evs.foldl stepEv PgnInfoBuilder.new)
  set b := evs.foldl stepEv PgnInfoBuilder.new with hb
  constructor
  · intro hmiss
    simp only [get_pgn_info, end_game, ← hb, hw.1, hw.2.1, hw.2.2.1, hw.2.2.2]
    by_cases h1 : b.white_player = none
    · exact ⟨"assertion failed: white_player != None", by simp [h1]⟩
    · by_cases h2 : b.black_player = none
      · exact ⟨"assertion failed: black_player != None", by simp [h1, h2]⟩
      · by_cases h3 : b.date = none
        · exact ⟨"assertion failed: date != None", by simp [h1, h2, h3]⟩
        · by_cases h4 : b.event = none
          · exact ⟨"assertion failed: event != None", by simp [h1, h2, h3, h4]⟩
          · rcases hmiss with h | h | h | h <;> contradiction
  · intro g hg
    simp only [get_pgn_info, end_game, ← hb, hw.1, hw.2.1, hw.2.2.1, hw.2.2.2] at hg
    split at hg
    · exact absurd hg (by simp)
    · split at hg
      · exact absurd hg (by simp)
      · split at hg
        · exact absurd hg (by simp)
        · split at hg
          · exact absurd hg (by simp)
          · rename_i h1 h2 h3 h4
            cases hg1 : b.white_player with
            | none => exact absurd hg1 h1
            | some w =>
              cases hg2 : b.black_player with
              | none => exact absurd hg2 h2
              | some bl =>
                cases hg3 : b.date with
                | none => exact absurd hg3 h3
                | some d =>
                  cases hg4 : b.event with
                  | none => exact absurd hg4 h4
                  | some e =>
                    simp only [ParseResult.ok.injEq] at hg
                    subst hg
                    simp [hg1, hg2, hg3, hg4, EngineName.new]

/-- Witness for C3 (amended): a concrete game with no Event header panics,
and a concrete complete game's fields equal its headers. -/
theorem c3_missing_header_panics_witness :
    (∃ m, get_pgn_info (some [PgnEvent.header "White" "a", PgnEvent.header "Black" "b",
        PgnEvent.header "Date" "d"]) = .panicked m)
    ∧ ([PgnEvent.header "White" "a", PgnEvent.header "Black" "b", PgnEvent.header "Date" "d",
          PgnEvent.header "Event" "e"].foldl stepEv PgnInfoBuilder.new).date
        = some (Pgn.date ⟨⟨"a"⟩, ⟨"b"⟩, "d", "e", []⟩) := by
  constructor
  · exact (c3_missing_header_panics [PgnEvent.header "White" "a", PgnEvent.header "Black" "b",
      PgnEvent.header "Date" "d"]).1 (by decide)
  · exact ((c3_missing_header_panics [PgnEvent.header "White" "a", PgnEvent.header "Black" "b",
      PgnEvent.header "Date" "d", PgnEvent.header "Event" "e"]).2
        ⟨⟨"a"⟩, ⟨"b"⟩, "d", "e", []⟩ (by decide)).2.2.1

/-! ### Helper lemmas: UTF-8 encoding is injective and 0xff-free -/

theorem char_toNat_lt (c : Char) : c.toNat < 1114112 := by
  have h := c.valid
  rcases h with h | ⟨h1, h2⟩ <;> simp [Char.toNat] <;> omega

theorem utf8Char_lt_255 (c : Char) : ∀ b ∈ utf8Char c, b < 255 := by
  intro b hb
  have hc := char_toNat_lt c
  by_cases h1 : c.toNat < 128
  · simp [utf8Char, h1] at hb
    omega
  · by_cases h2 : c.toNat < 2048
    · simp [utf8Char, h1, h2] at hb
      rcases hb with hb | hb <;> omega
    · by_cases h3 : c.toNat < 65536
      · simp [utf8Char, h1, h2, h3] at hb
        rcases hb with hb | hb | hb <;> omega
      · simp [utf8Char, h1, h2, h3] at hb
        rcases hb with hb | hb | hb | hb <;> omega

theorem not_255_mem_utf8Str (s : String) : ¬ 255 ∈ utf8Str s := by
  show ¬ 255 ∈ s.data.foldr (fun c acc => utf8Char c ++ acc) []
  induction s.data with
  | nil => simp
  | cons c cs ih =>
    simp only [List.foldr_cons, List.mem_append]
    rintro (h | h)
    · exact absurd (utf8Char_lt_255 c 255 h) (by omega)
    · exact ih h


theorem utf8Char_cons_inj (c d : Char) (ra rb : List Nat)
    (h : utf8Char c ++ ra = utf8Char d ++ rb) : c = d ∧ ra = rb := by
  have hc := char_toNat_lt c
  have hd := char_toNat_lt d
  have key : c.toNat = d.toNat ∧ ra = rb := by
    by_cases hc1 : c.toNat < 128
    · by_cases hd1 : d.toNat < 128
      · simp [utf8Char, hc1, hd1] at h
        exact ⟨h.1, h.2⟩
      · by_cases hd2 : d.toNat < 2048
        · simp [utf8Char, hc1, hd1, hd2] at h
          omega
        · by_cases hd3 : d.toNat < 65536
          · simp [utf8Char, hc1, hd1, hd2, hd3] at h
            omega
          · simp [utf8Char, hc1, hd1, hd2, hd3] at h
            omega
    · by_cases hc2 : c.toNat < 2048
      · by_cases hd1 : d.toNat < 128
        · simp [utf8Char, hc1, hc2, hd1] at h
          omega
        · by_cases hd2 : d.toNat < 2048
          · simp [utf8Char, hc1, hc2, hd1, hd2] at h
            exact ⟨by omega, h.2.2⟩
          · by_cases hd3 : d.toNat < 65536
            · simp [utf8Char, hc1, hc2, hd1, hd2, hd3] at h
              omega
            · simp [utf8Char, hc1, hc2, hd1, hd2, hd3] at h
              omega
      · by_cases hc3 : c.toNat < 65536
        · by_cases hd1 : d.toNat < 128
          · simp [utf8Char, hc1, hc2, hc3, hd1] at h
            omega
          · by_cases hd2 : d.toNat < 2048
            · simp [utf8Char, hc1, hc2, hc3, hd1, hd2] at h
              omega
            · by_cases hd3 : d.toNat < 65536
              · simp [utf8Char, hc1, hc2, hc3, hd1, hd2, hd3] at h
                exact ⟨by omega, h.2.2.2⟩
              · simp [utf8Char, hc1, hc2, hc3, hd1, hd2, hd3] at h
                omega
        · by_cases hd1 : d.toNat < 128
          · simp [utf8Char, hc1, hc2, hc3, hd1] at h
            omega
          · by_cases hd2 : d.toNat < 2048
            · simp [utf8Char, hc1, hc2, hc3, hd1, hd2] at h
              omega
            · by_cases hd3 : d.toNat < 65536
              · simp [utf8Char, hc1, hc2, hc3, hd1, hd2, hd3] at h
                omega
              · simp [utf8Char, hc1, hc2, hc3, hd1, hd2, hd3] at h
                exact ⟨by omega, h.2.2.2.2⟩
  refine ⟨?_, key.2⟩
  rw [← Char.ofNat_toNat c, ← Char.ofNat_toNat d, key.1]

theorem utf8Char_ne_nil (c : Char) : utf8Char c ≠ [] := by
  have hc := char_toNat_lt c
  by_cases h1 : c.toNat < 128
  · simp [utf8Char, h1]
  · by_cases h2 : c.toNat < 2048
    · simp [utf8Char, h1, h2]
    · by_cases h3 : c.toNat < 65536 <;> simp [utf8Char, h1, h2, h3]

theorem utf8List_inj :
    ∀ (a b : List Char),
      a.foldr (fun c acc => utf8Char c ++ acc) [] = b.foldr (fun c acc => utf8Char c ++ acc) []
      → a = b := by
  intro a
  induction a with
  | nil =>
    intro b h
    cases b with
    | nil => rfl
    | cons d ds =>
      simp only [List.foldr_nil, List.foldr_cons] at h
      exact absurd (List.append_eq_nil.mp h.symm).1 (utf8Char_ne_nil d)
  | cons c cs ih =>
    intro b h
    cases b with
    | nil =>
      simp only [List.foldr_nil, List.foldr_cons] at h
      exact absurd (List.append_eq_nil.mp h).1 (utf8Char_ne_nil c)
    | cons d ds =>
      simp only [List.foldr_cons] at h
      obtain ⟨hcd, ht⟩ := utf8Char_cons_inj c d _ _ h
      rw [hcd, ih ds ht]

theorem utf8Str_inj (a b : String) (h : utf8Str a = utf8Str b) : a = b := by
  have := utf8List_inj a.data b.data h
  cases a
  cases b
  exact congrArg String.mk this

theorem append_sep_inj :
    ∀ (a1 a2 t1 t2 : List Nat), ¬ 255 ∈ a1 → ¬ 255 ∈ a2 →
      a1 ++ 255 :: t1 = a2 ++ 255 :: t2 → a1 = a2 ∧ t1 = t2 := by
  intro a1
  induction a1 with
  | nil =>
    intro a2 t1 t2 h1 h2 h
    cases a2 with
    | nil => simpa using h
    | cons x xs =>
      simp only [List.nil_append, List.cons_append, List.cons.injEq] at h
      refine absurd ?_ h2
      rw [← h.1]
      exact List.mem_cons_self _ _
  | cons y ys ih =>
    intro a2 t1 t2 h1 h2 h
    cases a2 with
    | nil =>
      simp only [List.nil_append, List.cons_append, List.cons.injEq] at h
      refine absurd ?_ h1
      rw [h.1]
      exact List.mem_cons_self _ _
    | cons x xs =>
      simp only [List.cons_append, List.cons.injEq] at h
      obtain ⟨hs, ht⟩ := ih xs t1 t2 (fun hm => h1 (List.mem_cons_of_mem _ hm))
        (fun hm => h2 (List.mem_cons_of_mem _ hm)) h.2
      exact ⟨by rw [h.1, hs], ht⟩

theorem encodeChunks_cons (s : String) (l : List String) :
    encodeChunks (s :: l) = utf8Str s ++ 255 :: encodeChunks l := by
  simp [encodeChunks, strHashBytes]

theorem encodeChunks_inj : ∀ (l1 l2 : List String),
    encodeChunks l1 = encodeChunks l2 → l1 = l2 := by
  intro l1
  induction l1 with
  | nil =>
    intro l2 h
    cases l2 with
    | nil => rfl
    | cons t ts =>
      rw [encodeChunks_cons] at h
      exact absurd h.symm (by simp [encodeChunks])
  | cons s ls ih =>
    intro l2 h
    cases l2 with
    | nil =>
      rw [encodeChunks_cons] at h
      exact absurd h (by simp [encodeChunks])
    | cons t ts =>
      rw [encodeChunks_cons, encodeChunks_cons] at h
      obtain ⟨hs, ht⟩ := append_sep_inj _ _ _ _ (not_255_mem_utf8Str s)
        (not_255_mem_utf8Str t) h
      rw [utf8Str_inj s t hs, ih ts ht]

theorem foldl_strHashBytes (l : List PgnMove) :
    ∀ acc, l.foldl (fun acc mv => acc ++ strHashBytes mv.sanStr) acc
      = acc ++ encodeChunks (l.map PgnMove.sanStr) := by
  induction l with
  | nil => intro acc; simp [encodeChunks]
  | cons mv t ih =>
    intro acc
    simp only [List.foldl_cons, List.map_cons, ih]
    simp [encodeChunks, List.append_assoc]

theorem hashStream_eq (g : Pgn) : g.hashStream = encodeChunks g.hashChunks := by
  simp [Pgn.hashStream, Pgn.hashChunks, foldl_strHashBytes, encodeChunks, List.append_assoc]

/-! ### C5 -/

/-- C5: two EngineName values are equal iff their normalized forms are equal,
and they feed identical byte streams to the hasher iff their normalized forms
are equal (so equal values always hash equal). -/
theorem c5_engine_eq_iff_normalized (a b : String) :
    ((EngineName.new a).eqv (EngineName.new b) = true
      ↔ EngineName.normalize a = EngineName.normalize b)
    ∧ ((EngineName.new a).hashBytes = (EngineName.new b).hashBytes
      ↔ EngineName.normalize a = EngineName.normalize b) := by
  refine ⟨by simp [EngineName.eqv, EngineName.new], ?_, ?_⟩
  · intro h
    have h' : utf8Str (EngineName.normalize a) ++ 255 :: []
        = utf8Str (EngineName.normalize b) ++ 255 :: [] := by
      simpa [EngineName.hashBytes, strHashBytes, EngineName.new] using h
    exact utf8Str_inj _ _ (append_sep_inj _ _ _ _ (not_255_mem_utf8Str _)
      (not_255_mem_utf8Str _) h').1
  · intro h
    simp [EngineName.hashBytes, EngineName.new, h]

/-! ### C1 -/

/-- C1: the identity hash is the default hasher run over exactly (normalized
white, normalized black, date, notation of each opening move, in order); it
is a function of those components (so re-parsing the same token stream gives
equal hashes and changing only post-opening moves preserves the hash);
changing the date, either player's normalized name, or the opening notation
sequence changes the byte stream fed to the hasher; and two games are equal
iff their identity hashes are equal. -/
theorem c1_identity_hash (g g2 : Pgn) (evs : Option (List PgnEvent)) :
    g.as_hash = sip13 (encodeChunks g.hashChunks)
    ∧ (g.hashChunks = g2.hashChunks → g.as_hash = g2.as_hash)
    ∧ (∀ h h2, get_pgn_info evs = .ok h → get_pgn_info evs = .ok h2 →
        h.as_hash = h2.as_hash)
    ∧ (g.date ≠ g2.date → g.hashStream ≠ g2.hashStream)
    ∧ (EngineName.normalize g.white_player.raw ≠ EngineName.normalize g2.white_player.raw →
        g.hashStream ≠ g2.hashStream)
    ∧ (EngineName.normalize g.black_player.raw ≠ EngineName.normalize g2.black_player.raw →
        g.hashStream ≠ g2.hashStream)
    ∧ (g.opening.map PgnMove.sanStr ≠ g2.opening.map PgnMove.sanStr →
        g.hashStream ≠ g2.hashStream)
    ∧ (g.white_player.raw = g2.white_player.raw → g.black_player.raw = g2.black_player.raw →
        g.date = g2.date →
        g.moves.takeWhile (fun mv => mv.in_book) = g2.moves.takeWhile (fun mv => mv.in_book) →
        g.as_hash = g2.as_hash)
    ∧ (g.eqv g2 = true ↔ g.as_hash = g2.as_hash) := by
  have hchunks : ∀ ga gb : Pgn, ga.hashStream = gb.hashStream → ga.hashChunks = gb.hashChunks := by
    intro ga gb h
    rw [hashStream_eq, hashStream_eq] at h
    exact encodeChunks_inj _ _ h
  refine ⟨by rw [Pgn.as_hash, hashStream_eq], ?_, ?_, ?_, ?_, ?_, ?_, ?_, ?_⟩
  · intro h
    rw [Pgn.as_hash, Pgn.as_hash, hashStream_eq, hashStream_eq, h]
  · intro h h2 e1 e2
    rw [e1] at e2
    cases e2
    rfl
  · intro hne heq
    have := hchunks _ _ heq
    simp only [Pgn.hashChunks, List.cons.injEq] at this
    exact hne this.2.2.1
  · intro hne heq
    have := hchunks _ _ heq
    simp only [Pgn.hashChunks, List.cons.injEq] at this
    exact hne this.1
  · intro hne heq
    have := hchunks _ _ heq
    simp only [Pgn.hashChunks, List.cons.injEq] at this
    exact hne this.2.1
  · intro hne heq
    have := hchunks _ _ heq
    simp only [Pgn.hashChunks, List.cons.injEq] at this
    exact hne this.2.2.2
  · intro hw hb hd hm
    rw [Pgn.as_hash, Pgn.as_hash, hashStream_eq, hashStream_eq]
    have : g.hashChunks = g2.hashChunks := by
      simp only [Pgn.hashChunks, Pgn.opening, hw, hb, hd, hm]
    rw [this]
  · simp [Pgn.eqv]

/-- Witness for C1: changing only the post-opening moves of the fixture game
preserves the identity hash, while changing only its date changes the byte
stream fed to the hasher. -/
theorem c1_identity_hash_witness :
    gameBBNB.as_hash = gameBBNBAlt.as_hash
    ∧ (gameBBNB.hashStream == gameBBNBDate.hashStream) = false := by
  constructor
  · exact (c1_identity_hash gameBBNB gameBBNBAlt none).2.2.2.2.2.2.2.1 rfl rfl rfl (by decide)
  · have := (c1_identity_hash gameBBNB gameBBNBDate none).2.2.2.1 (by decide)
    simpa [beq_eq_false_iff_ne] using this

/-! ### Helper lemmas: the identity hash is a 64-bit value -/

theorem sipBlocks_lt (s : SipState) (len : Nat) (bs : List Nat) :
    sipBlocks s len bs < 18446744073709551616 := by
  induction s, len, bs using sipBlocks.induct with
  | case1 s len b0 b1 b2 b3 b4 b5 b6 b7 rest ih => simpa [sipBlocks] using ih
  | case2 s len bs h =>
    rw [sipBlocks.eq_def]
    split
    · exact absurd rfl (h _ _ _ _ _ _ _ _ _)
    · simp only [w64]
      omega

theorem as_hash_lt (g : Pgn) : g.as_hash < 18446744073709551616 :=
  sipBlocks_lt _ _ _

/-! ### Helper lemmas: decimal rendering round-trips through parsing -/

theorem digitChar_isDigit (d : Nat) : (digitChar d).isDigit = true := by
  unfold digitChar
  split <;> decide

theorem digitChar_toNat (d : Nat) (h : d < 10) : (digitChar d).toNat = 48 + d := by
  interval_cases d <;> decide

theorem natToDecAux_peel (f : Nat) :
    ∀ (n : Nat) (acc : List Char), natToDecAux f n acc = natToDecAux f n [] ++ acc := by
  induction f with
  | zero => intro n acc; simp [natToDecAux]
  | succ f ih =>
    intro n acc
    by_cases h : n < 10
    · simp [natToDecAux, h]
    · simp only [natToDecAux, h, if_false]
      rw [ih (n / 10) (digitChar (n % 10) :: acc), ih (n / 10) [digitChar (n % 10)]]
      simp

theorem natToDecAux_fuel (f1 : Nat) :
    ∀ (f2 n : Nat) (acc : List Char), n < 10 ^ f1 → n < 10 ^ f2 → 0 < f1 → 0 < f2 →
      natToDecAux f1 n acc = natToDecAux f2 n acc := by
  induction f1 with
  | zero =>
    intro f2 n acc _ _ hf1 _
    exact absurd hf1 (by omega)
  | succ a ih =>
    intro f2 n acc h1 h2 _ hf2
    cases f2 with
    | zero => exact absurd hf2 (by omega)
    | succ b =>
      by_cases hn : n < 10
      · simp [natToDecAux, hn]
      · simp only [natToDecAux, hn, if_false]
        have ha : 0 < a := by
          by_contra hc
          have : a = 0 := by omega
          subst this
          norm_num at h1
          omega
        have hb : 0 < b := by
          by_contra hc
          have : b = 0 := by omega
          subst this
          norm_num at h2
          omega
        apply ih
        · rw [pow_succ] at h1
          omega
        · rw [pow_succ] at h2
          omega
        · exact ha
        · exact hb

theorem decDigitsVal_append_one (xs : List Char) (c : Char) :
    decDigitsVal (xs ++ [c]) = decDigitsVal xs * 10 + (c.toNat - 48) := by
  simp [decDigitsVal, List.foldl_append]

theorem natToDec_spec (n : Nat) :
    (natToDec n).data ≠ []
    ∧ (natToDec n).data.all Char.isDigit = true
    ∧ decDigitsVal ((natToDec n).data) = n := by
  induction n using Nat.strong_induction_on with
  | _ n ih =>
    by_cases h : n < 10
    · have e : (natToDec n).data = [digitChar n] := by
        simp [natToDec, natToDecAux, h]
      rw [e]
      refine ⟨by simp, by simp [digitChar_isDigit], ?_⟩
      simp only [decDigitsVal, List.foldl_cons, List.foldl_nil, Nat.zero_mul, Nat.zero_add]
      rw [digitChar_toNat n h]
      omega
    · have hlt : ∀ m : Nat, m < 10 ^ m + 1 := fun m => by
        have := Nat.lt_pow_self (by norm_num : (1 : Nat) < 10) m
        omega
      have hn10 : n / 10 < n := by omega
      have step : (natToDec n).data = (natToDec (n / 10)).data ++ [digitChar (n % 10)] := by
        show natToDecAux (n + 1) n [] = natToDecAux (n / 10 + 1) (n / 10) [] ++ [digitChar (n % 10)]
        have hu : natToDecAux (n + 1) n [] = natToDecAux n (n / 10) [digitChar (n % 10)] := by
          simp [natToDecAux, h]
        rw [hu, natToDecAux_peel]
        congr 1
        apply natToDecAux_fuel
        · have := Nat.lt_pow_self (by norm_num : (1 : Nat) < 10) n
          omega
        · have := Nat.lt_pow_self (by norm_num : (1 : Nat) < 10) (n / 10)
          calc n / 10 < 10 ^ (n / 10) := this
            _ ≤ 10 ^ (n / 10 + 1) := Nat.pow_le_pow_right (by norm_num) (by omega)
        · omega
        · omega
      obtain ⟨ih1, ih2, ih3⟩ := ih (n / 10) hn10
      rw [step]
      refine ⟨by simp, ?_, ?_⟩
      · simp [List.all_append, ih2, digitChar_isDigit]
      · rw [decDigitsVal_append_one, ih3, digitChar_toNat _ (by omega)]
        omega

theorem parseU64_natToDec (n : Nat) (h : n < 18446744073709551616) :
    parseU64 (natToDec n) = some n := by
  obtain ⟨hne, hdig, hval⟩ := natToDec_spec n
  rw [parseU64]
  have hmatch : (match (natToDec n).data with
      | c :: rest => if c = '+' then rest else c :: rest
      | [] => []) = (natToDec n).data := by
    cases hd : (natToDec n).data with
    | nil => rfl
    | cons c t =>
      have hc : c.isDigit = true := by
        have h2 := hdig
        rw [hd] at h2
        simp only [List.all_cons, Bool.and_eq_true] at h2
        exact h2.1
      have hcp : ¬ c = '+' := by
        intro hq
        subst hq
        exact absurd hc (by decide)
      simp [hcp]
  rw [hmatch]
  simp [hne, hdig, hval, h]

/-! ### Helper lemmas: line splitting -/

theorem splitLinesAux_ne_nil (cs : List Char) : ∀ cur, splitLinesAux cur cs ≠ [] := by
  induction cs with
  | nil => intro cur; simp [splitLinesAux]
  | cons c rest ih =>
    intro cur
    by_cases hc : c = '\n' <;> simp [splitLinesAux, hc, ih]

theorem getLast?_cons_ne {α : Type} (a : α) (l : List α) (h : l ≠ []) :
    (a :: l).getLast? = l.getLast? := by
  cases l with
  | nil => exact absurd rfl h
  | cons b t => simp [List.getLast?_cons_cons]

theorem dropLast_cons_ne {α : Type} (a : α) (l : List α) (h : l ≠ []) :
    (a :: l).dropLast = a :: l.dropLast := by
  cases l with
  | nil => exact absurd rfl h
  | cons b t => rfl

theorem splitLinesAux_getLast (cs : List Char) :
    ∀ cur, (splitLinesAux cur cs).getLast? = some ((lastSeg cur cs).reverse) := by
  induction cs with
  | nil => intro cur; simp [splitLinesAux, lastSeg]
  | cons c rest ih =>
    intro cur
    by_cases hc : c = '\n'
    · simp only [splitLinesAux, lastSeg, hc, if_true]
      rw [getLast?_cons_ne _ _ (splitLinesAux_ne_nil rest [])]
      exact ih []
    · simp only [splitLinesAux, lastSeg, hc, if_false]
      exact ih (c :: cur)

theorem lastSeg_append (zs cs : List Char) :
    ∀ cur, lastSeg cur (cs ++ zs) = lastSeg (lastSeg cur cs) zs := by
  induction cs with
  | nil => intro cur; simp [lastSeg]
  | cons c rest ih =>
    intro cur
    by_cases hc : c = '\n' <;> simp [lastSeg, hc, ih]

theorem splitLinesAux_append (zs cs : List Char) :
    ∀ cur, splitLinesAux cur (cs ++ zs)
      = (splitLinesAux cur cs).dropLast ++ splitLinesAux (lastSeg cur cs) zs := by
  induction cs with
  | nil => intro cur; simp [splitLinesAux, lastSeg]
  | cons c rest ih =>
    intro cur
    by_cases hc : c = '\n'
    · simp only [List.cons_append, splitLinesAux, lastSeg, hc, if_true, List.append_eq]
      rw [ih [], dropLast_cons_ne _ _ (splitLinesAux_ne_nil rest [])]
      simp
    · simp only [List.cons_append, splitLinesAux, lastSeg, hc, if_false]
      exact ih (c :: cur)

theorem splitLinesAux_no_newline :
    ∀ (ds : List Char), ¬ '\n' ∈ ds → ∀ cur ys,
      splitLinesAux cur (ds ++ '\n' :: ys) = (cur.reverse ++ ds) :: splitLinesAux [] ys := by
  intro ds
  induction ds with
  | nil => intro _ cur ys; simp [splitLinesAux]
  | cons d ds ih =>
    intro hnd cur ys
    have hd : ¬ d = '\n' := fun h => hnd (h ▸ List.mem_cons_self _ _)
    simp only [List.cons_append, splitLinesAux, hd, if_false, List.append_eq]
    rw [ih (fun h => hnd (List.mem_cons_of_mem _ h)) (d :: cur) ys]
    simp

theorem lastSeg_of_wf (content : String) (hwf : fileWF content) :
    lastSeg [] content.data = [] := by
  rcases hwf with h | h
  · rw [h]; rfl
  · have hne : content.data ≠ [] := by
      intro he
      rw [he] at h
      simp at h
    have h2 : content.data.getLast hne = '\n' := by
      have hq := List.getLast?_eq_getLast content.data hne
      rw [hq] at h
      exact (Option.some.injEq _ _).mp h
    have hdecomp : content.data = content.data.dropLast ++ ['\n'] := by
      conv_lhs => rw [← List.dropLast_append_getLast hne]
      rw [h2]
    rw [hdecomp, lastSeg_append]
    simp [lastSeg]

theorem stripCR_all_digits (cs : List Char) (h : cs.all Char.isDigit = true) :
    stripCR cs = cs := by
  rw [stripCR]
  split
  · rename_i c rest heq
    have hcm : c ∈ cs := by
      have : c ∈ cs.reverse := by
        rw [heq]
        exact List.mem_cons_self _ _
      simpa using this
    have hc : c.isDigit = true := List.all_eq_true.mp h c hcm
    have hcr : ¬ c = '\r' := by
      intro hq
      subst hq
      exact absurd hc (by decide)
    simp [hcr]
  · rfl

theorem strLines_append_line (content ln : String)
    (hwf : fileWF content) (hnd : ¬ '\n' ∈ ln.data) :
    strLines (content ++ ln ++ "\n") = strLines content ++ [⟨stripCR ln.data⟩]
    ∧ fileWF (content ++ ln ++ "\n") := by
  have hdata : (content ++ ln ++ "\n").data = content.data ++ (ln.data ++ ['\n']) := by
    simp [String.data_append]
  have hls := lastSeg_of_wf content hwf
  have e1 : splitLinesAux [] ((content ++ ln ++ "\n").data)
      = (splitLinesAux [] content.data).dropLast ++ [ln.data, []] := by
    rw [hdata, splitLinesAux_append, hls, splitLinesAux_no_newline ln.data hnd [] []]
    simp [splitLinesAux]
  have e2 : (splitLinesAux [] ((content ++ ln ++ "\n").data)).getLast? = some [] := by
    rw [e1, show (splitLinesAux [] content.data).dropLast ++ [ln.data, []]
      = ((splitLinesAux [] content.data).dropLast ++ [ln.data]) ++ [[]] by simp]
    exact List.getLast?_concat _
  have f1 : (splitLinesAux [] content.data).getLast? = some [] := by
    rw [splitLinesAux_getLast, hls]
    rfl
  constructor
  · rw [strLines, strLines]
    simp only [e2, f1, if_true, e1]
    rw [show (splitLinesAux [] content.data).dropLast ++ [ln.data, []]
      = ((splitLinesAux [] content.data).dropLast ++ [ln.data]) ++ [[]] by simp]
    rw [List.dropLast_concat]
    simp
  · right
    rw [hdata, show content.data ++ (ln.data ++ ['\n']) = (content.data ++ ln.data) ++ ['\n'] by
      simp]
    exact List.getLast?_concat _

/-! ### Helper lemmas: parsing the persisted lines -/

theorem parseAllLines_append_one (xs : List String) :
    ∀ (t : List Nat) (x : String) (v : Nat), parseAllLines xs = some t → parseU64 x = some v →
      parseAllLines (xs ++ [x]) = some (t ++ [v]) := by
  induction xs with
  | nil =>
    intro t x v h1 h2
    simp only [parseAllLines, Option.some.injEq] at h1
    subst h1
    simp [parseAllLines, h2]
  | cons l ls ih =>
    intro t x v h1 h2
    simp only [parseAllLines] at h1
    cases hpl : parseU64 l with
    | none => rw [hpl] at h1; simp at h1
    | some w =>
      rw [hpl] at h1
      cases hpa : parseAllLines ls with
      | none => rw [hpa] at h1; simp at h1
      | some ws =>
        rw [hpa] at h1
        simp only [Option.some.injEq] at h1
        subst h1
        simp [parseAllLines, hpl, ih ws x v hpa h2]

theorem parseAllLines_none (ls : List String) (h : ∃ l ∈ ls, parseU64 l = none) :
    parseAllLines ls = none := by
  induction ls with
  | nil => simp at h
  | cons l ls ih =>
    rcases h with ⟨x, hx, hpx⟩
    rcases List.mem_cons.mp hx with hx2 | hx2
    · subst hx2
      simp [parseAllLines, hpx]
    · rw [parseAllLines, ih ⟨x, hx2, hpx⟩]
      cases parseU64 l <;> rfl

/-! ### C6 -/

/-- C6: a successful `add` appends exactly one line — the base-10 decimal
rendering of the 64-bit identity hash — to the backing file, and a subsequent
`load` from that file (as in a new process) reads every line into the
in-memory set and reports `contains(g) = true`. -/
theorem c6_store_roundtrip (s : SeenGames) (g : Pgn) (t : List Nat)
    (hwf : fileWF s.file) (hparse : parseAllLines (strLines s.file) = some t) :
    (s.add g true).2 = true
    ∧ (s.add g true).1.file = s.file ++ natToDec g.as_hash ++ "\n"
    ∧ SeenGames.load true ((s.add g true).1.file)
        = .ok ⟨t ++ [g.as_hash], (s.add g true).1.file⟩
    ∧ (∀ s2, SeenGames.load true ((s.add g true).1.file) = .ok s2 →
        s2.contains g = true) := by
  have hfile : (s.add g true).1.file = s.file ++ natToDec g.as_hash ++ "\n" := by
    simp [SeenGames.add]
  have hnd : ¬ '\n' ∈ (natToDec g.as_hash).data := by
    intro hm
    have hc := List.all_eq_true.mp (natToDec_spec g.as_hash).2.1 _ hm
    exact absurd hc (by decide)
  obtain ⟨hlines, hwf2⟩ := strLines_append_line s.file (natToDec g.as_hash) hwf hnd
  have hmk : (⟨stripCR (natToDec g.as_hash).data⟩ : String) = natToDec g.as_hash := by
    rw [stripCR_all_digits _ (natToDec_spec g.as_hash).2.1]
  have hparse2 : parseAllLines (strLines ((s.add g true).1.file)) = some (t ++ [g.as_hash]) := by
    rw [hfile, hlines, hmk]
    exact parseAllLines_append_one _ t _ _ hparse (parseU64_natToDec _ (as_hash_lt g))
  have hload : SeenGames.load true ((s.add g true).1.file)
      = .ok ⟨t ++ [g.as_hash], (s.add g true).1.file⟩ := by
    simp [SeenGames.load, hparse2]
  refine ⟨by simp [SeenGames.add], hfile, hload, ?_⟩
  intro s2 h2
  rw [hload] at h2
  cases h2
  simp [SeenGames.contains]

/-- Witness for C6: adding the fixture game to an empty store and re-loading
its backing file yields a store containing the game. -/
theorem c6_store_roundtrip_witness :
    SeenGames.load true (((SeenGames.mk [] "").add gameAllBook true).1.file)
      = .ok ⟨[] ++ [gameAllBook.as_hash], ((SeenGames.mk [] "").add gameAllBook true).1.file⟩
    ∧ (SeenGames.mk ([] ++ [gameAllBook.as_hash])
        (((SeenGames.mk [] "").add gameAllBook true).1.file)).contains gameAllBook = true := by
  have h := c6_store_roundtrip ⟨[], ""⟩ gameAllBook [] (Or.inl rfl) (by decide)
  exact ⟨h.2.2.1, h.2.2.2 _ h.2.2.1⟩

/-! ### C9 -/

/-- C9 counterexample: a backing file with a malformed (non-numeric) line
makes `load` end in the `expect` panic — it is not an I/O-error value
returned to the caller. -/
theorem c9_counterexample :
    SeenGames.load true "abc\n" = .panicked "Bad state file" := by
  decide

/-- C9 (amended): when the backing file holds a malformed (non-numeric) line,
`load` fails hard by panicking with "Bad state file" (an `expect`, not an
IoError returned to the caller); it never succeeds with a partial set. -/
theorem c9_malformed_line_panics (content : String)
    (h : ∃ l ∈ strLines content, parseU64 l = none) :
    SeenGames.load true content = .panicked "Bad state file"
    ∧ ∀ s2, SeenGames.load true content ≠ .ok s2 := by
  have hp := parseAllLines_none _ h
  refine ⟨by simp [SeenGames.load, hp], ?_⟩
  intro s2
  simp [SeenGames.load, hp]

/-- Witness for C9 (amended): a concrete two-line file whose second line is
not numeric panics on load. -/
theorem c9_malformed_line_panics_witness :
    SeenGames.load true "12\nxy\n" = .panicked "Bad state file" :=
  (c9_malformed_line_panics "12\nxy\n" ⟨"xy", by decide, by decide⟩).1
